import Mathlib

/-!
Verification of the multi-agent QA orchestrator (memory validation, promotion,
sandboxed executor AST rewrites, session memory, blackboard data model)
against its natural-language specification.  All definitions are shallow
embeddings of the Python source under `src/`.
-/

namespace EagSpec

/-! ## String helpers: Python's `in` (substring) and `str.lower` -/

/-- Whether one character list begins with another (Python slice equality). -/
def listStartsWith : List Char → List Char → Bool
  | [], _ => true
  | _ :: _, [] => false
  | p :: ps, s :: ss => p = s && listStartsWith ps ss

/-- Whether `pat` occurs as a contiguous sublist of `s` (Python `pat in s`). -/
def listHasSub (pat : List Char) : List Char → Bool
  | [] => listStartsWith pat []
  | c :: rest => listStartsWith pat (c :: rest) || listHasSub pat rest

/-- Python's `pat in s` substring containment on strings. -/
def strContains (s pat : String) : Bool :=
  listHasSub pat.data s.data

/-- Python `str.lower()` (ASCII case folding, as all constants here are ASCII). -/
def strLower (s : String) : String :=
  String.mk (s.data.map Char.toLower)

/-! ## Memory validator (`src/memory_utils/memory_validator.py`) -/

/-- The `FRESHNESS_KEYWORDS` from `memory_validator.py`. -/
def FRESHNESS_KEYWORDS : List String :=
  ["current", "latest", "now", "today", "updated", "recent", "new"]

/-- A Tier-2 metadata record as read from `metadata.json`; optional fields model
Python `dict.get` with its defaults applied at each use site. -/
structure MemoryEntry where
  confidence : Option ℚ
  timestamp : Option String
  ttl_hours : Option ℚ
  source : Option String
  query : Option String
  answer : Option String
  deriving DecidableEq, Repr

/-- Whether the query text contains some freshness keyword after lowering
(`any(keyword in query_to_check for keyword in FRESHNESS_KEYWORDS)`). -/
def hasFreshnessKeyword (q : String) : Bool :=
  FRESHNESS_KEYWORDS.any (fun k => strContains q k)

/-- The `query_to_check` from `is_memory_valid`: the current query when non-empty
(Python truthiness), else the entry's stored query, lowercased. -/
def queryToCheck (original_query : String) (m : MemoryEntry) : String :=
  if original_query ≠ "" then strLower original_query
  else strLower (m.query.getD "")

/-- The `is_memory_valid(memory_entry, original_query)` from `memory_validator.py`.
The clock-dependent `get_age_hours` is abstracted as `ageOf`; `none` models an
unparsable timestamp (Python returns `float('inf')`, which fails every TTL
comparison). -/
def is_memory_valid (ageOf : String → Option ℚ) (m : MemoryEntry)
    (original_query : String) : Bool :=
  let confidence := m.confidence.getD 0
  if confidence < mkRat 9 10 then false
  else
    match m.timestamp with
    | none => false
    | some ts =>
      if ts = "" then false
      else
        let ttl := m.ttl_hours.getD 168
        match ageOf ts with
        | none => false
        | some age =>
          if age > ttl then false
          else
            let source := strLower (m.source.getD "")
            if strContains source "web_search" && age > 24 then false
            else
              if hasFreshnessKeyword (queryToCheck original_query m) && age > 1
              then false
              else true

/-- The Tier-2 search loop of `RetrieverAgent.search_memory_faiss`: walk the
nearest-neighbour candidates in order and return the first entry accepted by
`is_memory_valid`. -/
def search_memory_faiss (ageOf : String → Option ℚ)
    (candidates : List MemoryEntry) (query : String) : Option MemoryEntry :=
  candidates.find? (fun m => is_memory_valid ageOf m query)

/-- The validator's web test: `"web_search" in source.lower()`. -/
def webDerivedSource (m : MemoryEntry) : Bool :=
  strContains (strLower (m.source.getD "")) "web_search"

/-! ## Promotion and TTL (`should_index_to_memory`, `calculate_ttl_hours`) -/

/-- The `error_indicators` from `should_index_to_memory`. -/
def ERROR_INDICATORS : List String :=
  ["error", "failed", "not found", "could not", "unable to"]

/-- Whether the answer text contains an error indicator after lowering. -/
def hasErrorIndicator (answer : String) : Bool :=
  ERROR_INDICATORS.any (fun ind => strContains (strLower answer) ind)

/-- The `should_index_to_memory(confidence, source, answer, goal_achieved)` from
`memory_validator.py`. -/
def should_index_to_memory (confidence : ℚ) (source : String) (answer : String)
    (goal_achieved : Bool) : Bool :=
  if !goal_achieved then false
  else if confidence < mkRat 9 10 then false
  else if answer.length < 20 then false
  else if hasErrorIndicator answer then false
  else
    let source_lower := strLower source
    if strContains source_lower "local documents" || strContains source_lower "rag"
        || strContains source_lower "documents" then true
    else if strContains source_lower "web_search" || strContains source_lower "web" then
      decide (mkRat 19 20 ≤ confidence)
    else true

/-- The `calculate_ttl_hours(source)` from `memory_validator.py`. -/
def calculate_ttl_hours (source : String) : ℕ :=
  let source_lower := strLower source
  if strContains source_lower "web_search" || strContains source_lower "web" then 6
  else if strContains source_lower "documents" || strContains source_lower "rag"
      || strContains source_lower "local" then 168
  else 24

/-- The spec's "web-sourced" source class, read off the test both
`calculate_ttl_hours` and the web branch of `should_index_to_memory` use. -/
def isWebSourced (source : String) : Bool :=
  strContains (strLower source) "web_search" || strContains (strLower source) "web"

/-- The document test of `should_index_to_memory`'s accepting branch. -/
def hasDocumentMarker (source : String) : Bool :=
  strContains (strLower source) "local documents" || strContains (strLower source) "rag"
    || strContains (strLower source) "documents"

/-- The document test of `calculate_ttl_hours`'s 168-hour branch. -/
def hasTtlDocumentMarker (source : String) : Bool :=
  strContains (strLower source) "documents" || strContains (strLower source) "rag"
    || strContains (strLower source) "local"

/-- Promotion rule exactly as the claim words it: base checks plus
"web-sourced answers additionally require confidence ≥ 0.95", with
web-sourced read uniformly as the source class containing "web". -/
def promotionClaimed (confidence : ℚ) (source : String) (answer : String)
    (goal_achieved : Bool) : Bool :=
  goal_achieved && decide (mkRat 9 10 ≤ confidence) && decide (20 ≤ answer.length)
    && !hasErrorIndicator answer
    && (!isWebSourced source || decide (mkRat 19 20 ≤ confidence))

/-- Confidence threshold demanded by the amended promotion rule: 0.95 for a
web-sourced answer carrying no document marker, 0.9 otherwise. -/
def requiredConfidence (source : String) : ℚ :=
  if isWebSourced source && !hasDocumentMarker source then mkRat 19 20 else mkRat 9 10

/-- TTL rule as the claim words it (web class takes precedence, as in the
code): 6 for web-sourced, 168 for document-sourced, 24 otherwise. -/
def ttlClaimed (source : String) : ℕ :=
  if isWebSourced source then 6
  else if hasTtlDocumentMarker source then 168
  else 24


/-! ## Sandboxed executor (`src/action/executor.py`)

The snippet AST is a faithful fragment of the Python AST the executor's
`NodeTransformer`s traverse: expressions are names, constants, calls (with
positional and keyword arguments) and `await`; statements are expression
statements, assignments, `return`, and (async) function definitions.  Argument
and keyword lists are mutually inductive with expressions so that every
function below is structurally recursive, exactly mirroring `generic_visit`. -/

mutual
/-- Expression fragment of the snippet AST (`ast.expr`). -/
inductive Pexpr where
  | name : String → Pexpr
  | constE : Pexpr
  | call : Pexpr → PexprArgs → PexprKws → Pexpr
  | awaitE : Pexpr → Pexpr
  deriving DecidableEq, Repr
/-- Positional-argument list of a call (`ast.Call.args`). -/
inductive PexprArgs where
  | nil : PexprArgs
  | cons : Pexpr → PexprArgs → PexprArgs
  deriving DecidableEq, Repr
/-- Keyword-argument list of a call (`ast.Call.keywords`). -/
inductive PexprKws where
  | nil : PexprKws
  | cons : String → Pexpr → PexprKws → PexprKws
  deriving DecidableEq, Repr
end

mutual
/-- Statement fragment of the snippet AST (`ast.stmt`). -/
inductive Pstmt where
  | exprStmt : Pexpr → Pstmt
  | assign : String → Pexpr → Pstmt
  | ret : Pexpr → Pstmt
  | funcDef : String → PstmtList → Pstmt
  | asyncFuncDef : String → PstmtList → Pstmt
  deriving DecidableEq, Repr
/-- Statement list (`ast.Module.body`, function bodies). -/
inductive PstmtList where
  | nil : PstmtList
  | cons : Pstmt → PstmtList → PstmtList
  deriving DecidableEq, Repr
end

/-- Concatenation of positional-argument lists. -/
def appendArgs : PexprArgs → PexprArgs → PexprArgs
  | .nil, ys => ys
  | .cons x xs, ys => .cons x (appendArgs xs ys)

/-- Concatenation of statement lists (used by the auto-return append). -/
def appendStmts : PstmtList → PstmtList → PstmtList
  | .nil, ys => ys
  | .cons x xs, ys => .cons x (appendStmts xs ys)

mutual
/-- Number of `ast.Call` nodes in an expression (`count_function_calls` walks
every node of the tree). -/
def countCallsE : Pexpr → Nat
  | .name _ => 0
  | .constE => 0
  | .call f args kws => 1 + countCallsE f + countCallsA args + countCallsK kws
  | .awaitE e => countCallsE e
/-- Call count of a positional-argument list. -/
def countCallsA : PexprArgs → Nat
  | .nil => 0
  | .cons e rest => countCallsE e + countCallsA rest
/-- Call count of a keyword-argument list. -/
def countCallsK : PexprKws → Nat
  | .nil => 0
  | .cons _ e rest => countCallsE e + countCallsK rest
end

mutual
/-- Call count of a statement. -/
def countCallsS : Pstmt → Nat
  | .exprStmt e => countCallsE e
  | .assign _ e => countCallsE e
  | .ret e => countCallsE e
  | .funcDef _ body => countCallsSL body
  | .asyncFuncDef _ body => countCallsSL body
/-- The `count_function_calls(code)` from `executor.py`: the number of `ast.Call`
nodes in the parsed module body. -/
def countCallsSL : PstmtList → Nat
  | .nil => 0
  | .cons s rest => countCallsS s + countCallsSL rest
end

/-- The `MAX_FUNCTIONS` from `executor.py`. -/
def MAX_FUNCTIONS : Nat := 50

/-- Values of a keyword list, in source order (`[kw.value for kw in keywords]`). -/
def kwValues : PexprKws → PexprArgs
  | .nil => .nil
  | .cons _ e rest => .cons e (kwValues rest)

mutual
/-- The `KeywordStripper.visit_Call`: children are rewritten first
(`generic_visit`), then every keyword argument's value is appended as a
positional argument in source order and the keyword list is emptied. -/
def stripE : Pexpr → Pexpr
  | .name s => .name s
  | .constE => .constE
  | .awaitE e => .awaitE (stripE e)
  | .call f args kws =>
      .call (stripE f) (appendArgs (stripA args) (kwValues (stripK kws))) .nil
/-- Keyword stripping over a positional-argument list. -/
def stripA : PexprArgs → PexprArgs
  | .nil => .nil
  | .cons e rest => .cons (stripE e) (stripA rest)
/-- Keyword stripping over a keyword list (rewrites the keyword values). -/
def stripK : PexprKws → PexprKws
  | .nil => .nil
  | .cons n e rest => .cons n (stripE e) (stripK rest)
end

mutual
/-- Keyword stripping over a statement. -/
def stripS : Pstmt → Pstmt
  | .exprStmt e => .exprStmt (stripE e)
  | .assign n e => .assign n (stripE e)
  | .ret e => .ret (stripE e)
  | .funcDef n body => .funcDef n (stripSL body)
  | .asyncFuncDef n body => .asyncFuncDef n (stripSL body)
/-- Keyword stripping over a statement list. -/
def stripSL : PstmtList → PstmtList
  | .nil => .nil
  | .cons s rest => .cons (stripS s) (stripSL rest)
end

mutual
/-- The `AwaitTransformer.visit_Call` / `visit_Await`: after rewriting children, a
call whose callee is a bare name in `safe` is wrapped in `ast.Await`; a call
that is the direct operand of an existing `await` is marked
`_skip_auto_await` and left unwrapped (its children are still rewritten). -/
def awaitTrE (safe : List String) : Pexpr → Pexpr
  | .name s => .name s
  | .constE => .constE
  | .awaitE (.call f args kws) =>
      .awaitE (.call (awaitTrE safe f) (awaitTrA safe args) (awaitTrK safe kws))
  | .awaitE (.name s) => .awaitE (.name s)
  | .awaitE .constE => .awaitE .constE
  | .awaitE (.awaitE v) => .awaitE (awaitTrE safe (.awaitE v))
  | .call f args kws =>
      match awaitTrE safe f with
      | .name s =>
          if safe.contains s then
            .awaitE (.call (.name s) (awaitTrA safe args) (awaitTrK safe kws))
          else
            .call (.name s) (awaitTrA safe args) (awaitTrK safe kws)
      | f' => .call f' (awaitTrA safe args) (awaitTrK safe kws)
/-- Auto-await rewrite over a positional-argument list. -/
def awaitTrA (safe : List String) : PexprArgs → PexprArgs
  | .nil => .nil
  | .cons e rest => .cons (awaitTrE safe e) (awaitTrA safe rest)
/-- Auto-await rewrite over a keyword list. -/
def awaitTrK (safe : List String) : PexprKws → PexprKws
  | .nil => .nil
  | .cons n e rest => .cons n (awaitTrE safe e) (awaitTrK safe rest)
end

mutual
/-- Auto-await rewrite over a statement. -/
def awaitTrS (safe : List String) : Pstmt → Pstmt
  | .exprStmt e => .exprStmt (awaitTrE safe e)
  | .assign n e => .assign n (awaitTrE safe e)
  | .ret e => .ret (awaitTrE safe e)
  | .funcDef n body => .funcDef n (awaitTrSL safe body)
  | .asyncFuncDef n body => .asyncFuncDef n (awaitTrSL safe body)
/-- Auto-await rewrite over a statement list. -/
def awaitTrSL (safe : List String) : PstmtList → PstmtList
  | .nil => .nil
  | .cons s rest => .cons (awaitTrS safe s) (awaitTrSL safe rest)
end

mutual
/-- Function names defined by a statement, including nested definitions
(`ast.walk` collects every `FunctionDef`/`AsyncFunctionDef`). -/
def localDefsS : Pstmt → List String
  | .exprStmt _ => []
  | .assign _ _ => []
  | .ret _ => []
  | .funcDef n body => n :: localDefsSL body
  | .asyncFuncDef n body => n :: localDefsSL body
/-- Locally defined function names of a statement list. -/
def localDefsSL : PstmtList → List String
  | .nil => []
  | .cons s rest => localDefsS s ++ localDefsSL rest
end

/-- The `set(tool_funcs) - local_defs`: tools that are not shadowed by a local
definition anywhere in the snippet. -/
def safeTools (tools : List String) (p : PstmtList) : List String :=
  tools.filter (fun t => !(localDefsSL p).contains t)

/-- Whether the module body contains a top-level `ast.Return`
(`any(isinstance(node, ast.Return) for node in tree.body)`). -/
def hasReturnTop : PstmtList → Bool
  | .nil => false
  | .cons (.ret _) _ => true
  | .cons _ rest => hasReturnTop rest

/-- Whether the module body contains a top-level assignment to `result`. -/
def hasResultAssignTop : PstmtList → Bool
  | .nil => false
  | .cons (.assign n _) rest => n = "result" || hasResultAssignTop rest
  | .cons _ rest => hasResultAssignTop rest

/-- The auto-return append: `tree.body.append(Return(Name("result")))` when the
body assigns `result` at top level and has no top-level return. -/
def autoReturn (p : PstmtList) : PstmtList :=
  if !hasReturnTop p && hasResultAssignTop p then
    appendStmts p (.cons (.ret (.name "result")) .nil)
  else p

/-- Static errors surfaced by `run_user_code` before execution. -/
inductive ExecError where
  | tooManyFunctions : Nat → ExecError
  deriving DecidableEq, Repr

/-- Outcome of the static phase of `run_user_code`: either an early-return
error (no sandbox is built and no tool proxy is ever invoked) or the rewritten
program handed to the execution phase. -/
inductive ExecOutcome where
  | rejected : ExecError → ExecOutcome
  | proceed : PstmtList → ExecOutcome
  deriving DecidableEq, Repr

/-- The static pipeline of `run_user_code`: call-count guard, auto-return,
keyword stripping, local-definition collection, auto-await rewrite.  The
guard's early return precedes tool-proxy construction, so a `rejected`
outcome carries no program to execute. -/
def run_user_code_static (tools : List String) (p : PstmtList) : ExecOutcome :=
  if countCallsSL p > MAX_FUNCTIONS then
    .rejected (.tooManyFunctions (countCallsSL p))
  else
    let stripped := stripSL (autoReturn p)
    let safe := safeTools tools stripped
    .proceed (awaitTrSL safe stripped)

/-- The program the execution phase receives, if any. -/
def executedProgram : ExecOutcome → Option PstmtList
  | .rejected _ => none
  | .proceed q => some q

/-- Whether a callee expression is allowed to stand unsuspended: a bare name
is allowed only when it is not a safe tool name. -/
def calleeOk (safe : List String) : Pexpr → Bool
  | .name s => !safe.contains s
  | _ => true

mutual
/-- Every call to a safe tool name is the direct operand of an `await`. -/
def allAwaitedE (safe : List String) : Pexpr → Bool
  | .name _ => true
  | .constE => true
  | .awaitE (.call f args kws) =>
      allAwaitedE safe f && allAwaitedA safe args && allAwaitedK safe kws
  | .awaitE (.name _) => true
  | .awaitE .constE => true
  | .awaitE (.awaitE v) => allAwaitedE safe (.awaitE v)
  | .call f args kws =>
      calleeOk safe f && allAwaitedE safe f && allAwaitedA safe args
        && allAwaitedK safe kws
/-- The `allAwaitedE` over a positional-argument list. -/
def allAwaitedA (safe : List String) : PexprArgs → Bool
  | .nil => true
  | .cons e rest => allAwaitedE safe e && allAwaitedA safe rest
/-- The `allAwaitedE` over a keyword list. -/
def allAwaitedK (safe : List String) : PexprKws → Bool
  | .nil => true
  | .cons _ e rest => allAwaitedE safe e && allAwaitedK safe rest
end

mutual
/-- The `allAwaitedE` over a statement. -/
def allAwaitedS (safe : List String) : Pstmt → Bool
  | .exprStmt e => allAwaitedE safe e
  | .assign _ e => allAwaitedE safe e
  | .ret e => allAwaitedE safe e
  | .funcDef _ body => allAwaitedSL safe body
  | .asyncFuncDef _ body => allAwaitedSL safe body
/-- The `allAwaitedE` over a statement list. -/
def allAwaitedSL (safe : List String) : PstmtList → Bool
  | .nil => true
  | .cons s rest => allAwaitedS safe s && allAwaitedSL safe rest
end

mutual
/-- Number of `await` nodes whose direct operand is a call to the bare name
`t` (the suspension wrappers around calls to `t`). -/
def awCountE (t : String) : Pexpr → Nat
  | .name _ => 0
  | .constE => 0
  | .awaitE (.call (.name s) args kws) =>
      (if s = t then 1 else 0) + awCountA t args + awCountK t kws
  | .awaitE (.call f args kws) =>
      awCountE t f + awCountA t args + awCountK t kws
  | .awaitE (.name _) => 0
  | .awaitE .constE => 0
  | .awaitE (.awaitE v) => awCountE t (.awaitE v)
  | .call f args kws => awCountE t f + awCountA t args + awCountK t kws
/-- The `awCountE` over a positional-argument list. -/
def awCountA (t : String) : PexprArgs → Nat
  | .nil => 0
  | .cons e rest => awCountE t e + awCountA t rest
/-- The `awCountE` over a keyword list. -/
def awCountK (t : String) : PexprKws → Nat
  | .nil => 0
  | .cons _ e rest => awCountE t e + awCountK t rest
end

mutual
/-- The `awCountE` over a statement. -/
def awCountS (t : String) : Pstmt → Nat
  | .exprStmt e => awCountE t e
  | .assign _ e => awCountE t e
  | .ret e => awCountE t e
  | .funcDef _ body => awCountSL t body
  | .asyncFuncDef _ body => awCountSL t body
/-- The `awCountE` over a statement list. -/
def awCountSL (t : String) : PstmtList → Nat
  | .nil => 0
  | .cons s rest => awCountS t s + awCountSL t rest
end

/-- Whether a keyword list is empty. -/
def kwsNil : PexprKws → Bool
  | .nil => true
  | .cons _ _ _ => false

mutual
/-- Every call in the expression carries no keyword arguments. -/
def noKwE : Pexpr → Bool
  | .name _ => true
  | .constE => true
  | .awaitE e => noKwE e
  | .call f args kws => kwsNil kws && noKwE f && noKwA args && noKwK kws
/-- The `noKwE` over a positional-argument list. -/
def noKwA : PexprArgs → Bool
  | .nil => true
  | .cons e rest => noKwE e && noKwA rest
/-- The `noKwE` over a keyword list (checks the keyword values). -/
def noKwK : PexprKws → Bool
  | .nil => true
  | .cons _ e rest => noKwE e && noKwK rest
end

mutual
/-- The `noKwE` over a statement. -/
def noKwS : Pstmt → Bool
  | .exprStmt e => noKwE e
  | .assign _ e => noKwE e
  | .ret e => noKwE e
  | .funcDef _ body => noKwSL body
  | .asyncFuncDef _ body => noKwSL body
/-- The `noKwE` over a statement list. -/
def noKwSL : PstmtList → Bool
  | .nil => true
  | .cons s rest => noKwS s && noKwSL rest
end

/-- A module body of `n` top-level statements `f()` (used as boundary inputs
for the call-count guard). -/
def callsN (f : String) : Nat → PstmtList
  | 0 => .nil
  | n + 1 => .cons (.exprStmt (.call (.name f) .nil .nil)) (callsN f n)


/-! ## Result resolution and the `final_answer` sink (`executor.py`) -/

/-- A sandbox value as seen by the result-resolution code: Python `None`, a
string, or an integer (other objects behave like these under `str()`). -/
inductive PyVal where
  | none : PyVal
  | str : String → PyVal
  | int : Int → PyVal
  deriving DecidableEq, Repr

/-- Python `str(value)`. -/
def pyStr : PyVal → String
  | .none => "None"
  | .str s => s
  | .int n => toString n

/-- The result-resolution code of `run_user_code` (success path): start from
the awaited return value; if it `is None`, read `result_holder` from the
sandbox (default `None`); if the result `is None` or prints as `"None"`,
substitute captured stdout when non-empty, else the sentinel.  The returned
string is `str(result_value)`. -/
def resolve_result (returned : PyVal) (holder : Option PyVal)
    (stdout : String) : String :=
  let r1 := if returned = .none then holder.getD .none else returned
  let r2 : PyVal :=
    if r1 = .none || pyStr r1 = "None" then
      if stdout ≠ "" then .str stdout else .str "Executed successfully (no output)."
    else r1
  pyStr r2

/-- Resolution priority exactly as the claim words it: the explicit return
value if present, else the `final_answer` capture, else captured stdout, else
the sentinel (quoted in the claim without a trailing period). -/
def claimed_resolve (returned : PyVal) (holder : Option PyVal)
    (stdout : String) : String :=
  if returned ≠ .none then pyStr returned
  else
    match holder.getD .none with
    | .none => if stdout ≠ "" then stdout else "Executed successfully (no output)"
    | v => pyStr v

/-- Amended resolution order: a stage's value counts as absent when it is
`None` or prints as `"None"`; a non-`None` return that prints as `"None"`
still pre-empts the `final_answer` capture; the sentinel ends in a period. -/
def amended_resolve (returned : PyVal) (holder : Option PyVal)
    (stdout : String) : String :=
  if pyStr returned ≠ "None" then pyStr returned
  else if returned = .none && pyStr (holder.getD .none) ≠ "None" then
    pyStr (holder.getD .none)
  else if stdout ≠ "" then stdout
  else "Executed successfully (no output)."

/-- The `final_answer` sink from `build_safe_globals`:
`lambda x: safe_globals.setdefault("result_holder", x)` — the slot is written
only when it is still absent. -/
def final_answer_setdefault (holder : Option PyVal) (x : PyVal) : Option PyVal :=
  match holder with
  | some v => some v
  | none => some x

/-! ## Session memory (`src/utils/session_memory.py`) -/

/-- One conversation turn as stored by `SessionMemoryManager.add_turn`. -/
structure SessionTurn where
  turn_id : Nat
  query : String
  answer : String
  confidence : ℚ
  source : String
  validated : Bool
  context_from_turn : Option Nat
  deriving DecidableEq, Repr

/-- The `add_turn`: the new turn's `turn_id` is the current length of the
conversation (the zero-based insertion index); the turn is appended.  Returns
the updated conversation and the new turn id. -/
def add_turn (conv : List SessionTurn) (query answer : String) (confidence : ℚ)
    (source : String) (validated : Bool) (context_from_turn : Option Nat) :
    List SessionTurn × Nat :=
  (conv ++ [{ turn_id := conv.length, query := query, answer := answer,
              confidence := confidence, source := source, validated := validated,
              context_from_turn := context_from_turn }], conv.length)

/-- The `get_context_chain`, fuel-indexed: the Python loop
`while current_id is not None and 0 <= current_id < len(conversation)` follows
`context_from_turn` links, inserting each visited turn at the front of the
chain.  `fuel` bounds the number of iterations; a run that does not exhaust
its fuel computes exactly what the unbounded loop would. -/
def get_context_chain (fuel : Nat) (conv : List SessionTurn)
    (current_id : Option Nat) : List SessionTurn :=
  match fuel, current_id with
  | 0, _ => []
  | _, Option.none => []
  | fuel + 1, some i =>
    match conv[i]? with
    | Option.none => []
    | some t => get_context_chain fuel conv t.context_from_turn ++ [t]

/-- All `context_from_turn` references from position `k` onward point strictly
before the turn's own index (references go backward in insertion order). -/
def backwardFrom : Nat → List SessionTurn → Bool
  | _, [] => true
  | k, t :: rest =>
    (match t.context_from_turn with
     | Option.none => true
     | some j => decide (j < k)) && backwardFrom (k + 1) rest

/-- The conversation's references only go backward in insertion order. -/
def backwardRefs (conv : List SessionTurn) : Bool :=
  backwardFrom 0 conv

/-! ## Blackboard data model (`src/agent_state.py`) and coordinator routing -/

/-- The admissible values of `PlanStep.type`:
`Literal["CODE", "CONCLUDE", "NOP"]` in `agent_state.py`. -/
def planStepTypeLiteral : List String := ["CODE", "CONCLUDE", "NOP"]

/-- The pydantic validation of `PlanStep.type`: a value outside the `Literal`
raises `ValidationError` when `PlanStep(**data)` is constructed. -/
def planStepTypeValid (t : String) : Bool := planStepTypeLiteral.contains t

/-- The step types the decision agent's prompt schema offers the model
(`"type": "CODE" | "CONCLUDE" | "NOP" | "ASK_USER"` in
`agents/decision_agent.py`). -/
def decisionPromptTypes : List String := ["CODE", "CONCLUDE", "NOP", "ASK_USER"]

/-- Where the coordinator's execution loop routes an executed step. -/
inductive CoordRoute where
  | conclude : CoordRoute
  | askUser : CoordRoute
  | perceiveResult : CoordRoute
  deriving DecidableEq, Repr

/-- The dispatch in `Coordinator.run`: `if step.type == "CONCLUDE"` terminates
with the conclusion; `if step.type == "ASK_USER"` requests user feedback,
appends it to `user_feedback` and forces a replan; otherwise the step result
is perceived. -/
def coordinatorRouteStep (t : String) : CoordRoute :=
  if t = "CONCLUDE" then .conclude
  else if t = "ASK_USER" then .askUser
  else .perceiveResult

/-- The fields declared by `GlobalAgentState` in `agent_state.py`. -/
def globalAgentStateFields : List String :=
  ["session_id", "original_query", "final_answer", "plan_versions",
   "current_plan_index", "session_memory", "latest_perception", "context_data"]

/-- The state attributes the coordinator's HITL gates access:
`blackboard.state.hitl_config[...]` (lines 38/124/161) and
`blackboard.state.user_feedback.append(...)` (lines 142/237). -/
def coordinatorHitlAttrs : List String := ["hitl_config", "user_feedback"]


/-! ## Theorems -/

/-- The `List.foldl` over the `setdefault` sink never changes an occupied slot. -/
lemma final_answer_foldl_some (v : PyVal) (xs : List PyVal) :
    xs.foldl final_answer_setdefault (some v) = some v := by
  induction xs with
  | nil => rfl
  | cons x rest ih => simpa [final_answer_setdefault] using ih

/-- C10: within one executor run the `final_answer` sink is first-wins: after
any sequence of `final_answer(x)` calls the captured slot holds the first
argument, and any further call on an occupied slot leaves it unchanged. -/
theorem c10_final_answer_first_wins :
    (∀ (xs : List PyVal),
      xs.foldl final_answer_setdefault Option.none = xs.head?)
    ∧ (∀ (v : PyVal) (ys : List PyVal),
      ys.foldl final_answer_setdefault (some v) = some v) := by
  constructor
  · intro xs
    cases xs with
    | nil => rfl
    | cons x rest =>
      simp [List.foldl, final_answer_setdefault, final_answer_foldl_some]
  · exact fun v ys => final_answer_foldl_some v ys

/-- C7 counterexample: a snippet that returns the string "None" while having
captured a `final_answer` value resolves to captured stdout, not to the
returned value the claimed priority order dictates; and the code's sentinel
carries a trailing period absent from the claim's quoted sentinel. -/
theorem c7_counterexample :
    resolve_result (PyVal.str "None") (some (PyVal.str "42")) "out" = "out"
    ∧ claimed_resolve (PyVal.str "None") (some (PyVal.str "42")) "out" = "None"
    ∧ resolve_result PyVal.none Option.none "" = "Executed successfully (no output)."
    ∧ claimed_resolve PyVal.none Option.none "" = "Executed successfully (no output)"
    ∧ resolve_result PyVal.none Option.none ""
        ≠ claimed_resolve PyVal.none Option.none "" := by
  refine ⟨rfl, rfl, rfl, rfl, ?_⟩
  decide

/-- C7 (amended): the executor resolves the reported value in priority order
return → `final_answer` slot → stdout → sentinel, where a stage's value is
treated as absent when it is `None` or prints as "None" (a non-`None` return
printing as "None" still pre-empts the capture), and the sentinel is
"Executed successfully (no output)." with a trailing period. -/
theorem c7_resolution_amended (returned : PyVal) (holder : Option PyVal)
    (stdout : String) :
    resolve_result returned holder stdout = amended_resolve returned holder stdout := by
  rcases returned with _ | sv | nv
  · rcases hv : holder.getD PyVal.none with _ | s2 | n2
    · by_cases hs : stdout = "" <;>
        simp [resolve_result, amended_resolve, pyStr, hv, hs]
    · by_cases hsn : s2 = "None"
      · subst hsn
        by_cases hs : stdout = "" <;>
          simp [resolve_result, amended_resolve, pyStr, hv, hs]
      · simp [resolve_result, amended_resolve, pyStr, hv, hsn]
    · by_cases hn : toString n2 = "None"
      · by_cases hs : stdout = "" <;>
          simp [resolve_result, amended_resolve, pyStr, hv, hn, hs]
      · simp [resolve_result, amended_resolve, pyStr, hv, hn]
  · by_cases hsn : sv = "None"
    · subst hsn
      by_cases hs : stdout = "" <;>
        simp [resolve_result, amended_resolve, pyStr, hs]
    · simp [resolve_result, amended_resolve, pyStr, hsn]
  · by_cases hn : toString nv = "None"
    · by_cases hs : stdout = "" <;>
        simp [resolve_result, amended_resolve, pyStr, hn, hs]
    · simp [resolve_result, amended_resolve, pyStr, hn]

/-- C4: the `PlanStep.type` literal in `agent_state.py` rejects "ASK_USER"
even though the decision agent's prompt schema offers it and the
coordinator's execution loop routes it to a user request. -/
theorem c4_askuser_rejected_by_model :
    planStepTypeValid "ASK_USER" = false
    ∧ decisionPromptTypes.contains "ASK_USER" = true
    ∧ coordinatorRouteStep "ASK_USER" = CoordRoute.askUser
    ∧ planStepTypeValid "CODE" = true
    ∧ planStepTypeValid "CONCLUDE" = true
    ∧ planStepTypeValid "NOP" = true := by
  decide

/-- C5: the HITL attributes the coordinator's approval gates access
(`hitl_config`, `user_feedback`) are not among the fields declared by
`GlobalAgentState`. -/
theorem c5_hitl_fields_missing :
    coordinatorHitlAttrs.all (fun a => !globalAgentStateFields.contains a) = true
    ∧ globalAgentStateFields.contains "hitl_config" = false
    ∧ globalAgentStateFields.contains "user_feedback" = false := by
  decide


lemma is_memory_valid_spec (ageOf : String → Option ℚ) (m : MemoryEntry) (q : String)
    (h : is_memory_valid ageOf m q = true) :
    ¬(m.confidence.getD 0 < mkRat 9 10)
    ∧ ∃ ts age, m.timestamp = some ts ∧ ageOf ts = some age
       ∧ ¬(age > m.ttl_hours.getD 168)
       ∧ (strContains (strLower (m.source.getD "")) "web_search" = true → ¬(age > 24))
       ∧ (hasFreshnessKeyword (queryToCheck q m) = true → ¬(age > 1)) := by
  simp only [is_memory_valid] at h
  split at h
  next hc => exact Bool.noConfusion h
  next hc =>
    split at h
    next hts => exact Bool.noConfusion h
    next ts hts =>
      split at h
      next hemp => exact Bool.noConfusion h
      next hemp =>
        split at h
        next hage => exact Bool.noConfusion h
        next age hage =>
          split at h
          next httl => exact Bool.noConfusion h
          next httl =>
            split at h
            next hweb => exact Bool.noConfusion h
            next hweb =>
              split at h
              next hfresh => exact Bool.noConfusion h
              next hfresh =>
                refine ⟨hc, ts, age, hts, hage, httl, ?_, ?_⟩
                · intro hw hgt
                  exact hweb (by simp [hw, hgt])
                · intro hf hgt
                  exact hfresh (by simp [hf, hgt])


/-- C1: every Tier-2 entry returned by the retriever's cross-session cache
search satisfies the validation invariant: confidence at least 0.9, age within
its TTL, age at most 1 hour when the query carries a freshness keyword, and
age at most 24 hours for a web-derived source. -/
theorem c1_tier2_validation (ageOf : String → Option ℚ)
    (candidates : List MemoryEntry) (q : String) (m : MemoryEntry)
    (h : search_memory_faiss ageOf candidates q = some m) :
    mkRat 9 10 ≤ m.confidence.getD 0
    ∧ ∃ ts age, m.timestamp = some ts ∧ ageOf ts = some age
        ∧ age ≤ m.ttl_hours.getD 168
        ∧ (hasFreshnessKeyword (strLower q) = true → age ≤ 1)
        ∧ (webDerivedSource m = true → age ≤ 24) := by
  have hfind : candidates.find? (fun e => is_memory_valid ageOf e q) = some m := h
  have hv : is_memory_valid ageOf m q = true := by
    simpa using List.find?_some hfind
  obtain ⟨hc, ts, age, hts, hage, httl, hweb, hfresh⟩ :=
    is_memory_valid_spec ageOf m q hv
  refine ⟨not_lt.mp hc, ts, age, hts, hage, not_lt.mp httl, ?_, ?_⟩
  · intro hf
    have hqne : q ≠ "" := by
      intro he
      subst he
      exact absurd hf (by decide)
    have hq : queryToCheck q m = strLower q := by
      simp [queryToCheck, hqne]
    refine not_lt.mp (hfresh ?_)
    rw [hq]
    exact hf
  · intro hw
    exact not_lt.mp (hweb hw)

/-- C1 witness: a concrete high-confidence document entry of age 2 hours and
TTL 24 hours is returned for the query "hello" and satisfies the invariant. -/
theorem c1_tier2_validation_witness :
    mkRat 9 10 ≤
      (MemoryEntry.mk (some (mkRat 95 100)) (some "t") (some 24)
        (some "documents") (some "") (some "a")).confidence.getD 0
    ∧ ∃ ts age,
        (MemoryEntry.mk (some (mkRat 95 100)) (some "t") (some 24)
          (some "documents") (some "") (some "a")).timestamp = some ts
        ∧ (fun _ : String => some (2 : ℚ)) ts = some age
        ∧ age ≤ (MemoryEntry.mk (some (mkRat 95 100)) (some "t") (some 24)
            (some "documents") (some "") (some "a")).ttl_hours.getD 168
        ∧ (hasFreshnessKeyword (strLower "hello") = true → age ≤ 1)
        ∧ (webDerivedSource (MemoryEntry.mk (some (mkRat 95 100)) (some "t")
            (some 24) (some "documents") (some "") (some "a")) = true → age ≤ 24) :=
  c1_tier2_validation (fun _ => some (2 : ℚ))
    [MemoryEntry.mk (some (mkRat 95 100)) (some "t") (some 24)
      (some "documents") (some "") (some "a")] "hello"
    (MemoryEntry.mk (some (mkRat 95 100)) (some "t") (some 24)
      (some "documents") (some "") (some "a"))
    (by decide)

/-- The amended promotion rule's threshold is at least the base threshold. -/
lemma required_confidence_ge (source : String) :
    mkRat 9 10 ≤ requiredConfidence source := by
  unfold requiredConfidence
  split
  · decide
  · exact le_refl _

/-- C8 counterexample: the source string "web documents" is promoted by
`should_index_to_memory` at confidence 0.92 through the document branch, yet
it is web-sourced (its TTL is the web-class 6 hours), so the claimed uniform
rule "web-sourced requires confidence ≥ 0.95" rejects it. -/
theorem c8_promotion_counterexample :
    should_index_to_memory (mkRat 92 100) "web documents"
      "The capital of France is Paris." true = true
    ∧ isWebSourced "web documents" = true
    ∧ mkRat 92 100 < mkRat 19 20
    ∧ promotionClaimed (mkRat 92 100) "web documents"
      "The capital of France is Paris." true = false
    ∧ calculate_ttl_hours "web documents" = 6 := by
  decide

/-- C8 (amended): an answer is promoted into Tier 2 iff the goal was achieved,
the answer has at least 20 characters, contains no error indicator, and its
confidence reaches the source's required threshold — 0.95 for a web-sourced
answer whose source carries no document marker, 0.9 otherwise — and the TTL
assigned at insertion is 6 hours for web-sourced, else 168 for
document-sourced, else 24. -/
theorem c8_promotion_amended (confidence : ℚ) (source answer : String)
    (goal_achieved : Bool) :
    (should_index_to_memory confidence source answer goal_achieved = true
      ↔ (goal_achieved = true ∧ 20 ≤ answer.length
          ∧ hasErrorIndicator answer = false
          ∧ requiredConfidence source ≤ confidence))
    ∧ calculate_ttl_hours source = ttlClaimed source := by
  constructor
  · cases goal_achieved with
    | false => simp [should_index_to_memory]
    | true =>
      by_cases hc9 : confidence < mkRat 9 10
      · have hnr : ¬(requiredConfidence source ≤ confidence) := fun hle =>
          absurd (le_trans (required_confidence_ge source) hle) (not_le.mpr hc9)
        simp [should_index_to_memory, hc9, hnr]
      · by_cases hlen : answer.length < 20
        · simp [should_index_to_memory, hc9, hlen, Nat.not_le.mpr hlen]
        · by_cases herr : hasErrorIndicator answer = true
          · simp [should_index_to_memory, hc9, hlen, herr]
          · by_cases hdoc : (strContains (strLower source) "local documents"
                || strContains (strLower source) "rag"
                || strContains (strLower source) "documents") = true
            · have hreq : requiredConfidence source = mkRat 9 10 := by
                unfold requiredConfidence hasDocumentMarker
                simp [hdoc]
              simp [should_index_to_memory, hc9, hlen, herr, hdoc, hreq,
                not_lt.mp hc9, Nat.not_lt.mp hlen]
            · by_cases hwebt : (strContains (strLower source) "web_search"
                  || strContains (strLower source) "web") = true
              · have hreq : requiredConfidence source = mkRat 19 20 := by
                  unfold requiredConfidence isWebSourced hasDocumentMarker
                  simp only [hwebt]
                  simp [hdoc]
                simp [should_index_to_memory, hc9, hlen, herr, hdoc, hwebt, hreq,
                  not_lt.mp hc9, Nat.not_lt.mp hlen]
              · have hreq : requiredConfidence source = mkRat 9 10 := by
                  unfold requiredConfidence isWebSourced
                  simp [hwebt]
                simp [should_index_to_memory, hc9, hlen, herr, hdoc, hwebt, hreq,
                  not_lt.mp hc9, Nat.not_lt.mp hlen]
  · unfold calculate_ttl_hours ttlClaimed isWebSourced hasTtlDocumentMarker
    rfl


/-- The boundary program of `n` top-level calls has exactly `n` calls. -/
lemma countCalls_callsN (f : String) (n : Nat) :
    countCallsSL (callsN f n) = n := by
  induction n with
  | zero => rfl
  | succ k ih =>
    simp [callsN, countCallsSL, countCallsS, countCallsE, countCallsA,
      countCallsK, ih]
    omega

/-- C2: the static call-count guard accepts a snippet of exactly
`MAX_FUNCTIONS` call expressions, rejects one of `MAX_FUNCTIONS + 1` calls
with the operation-budget error, and a rejected snippet hands no program to
the execution phase, so no tool is invoked. -/
theorem c2_operation_budget (tools : List String) (p : PstmtList) :
    (countCallsSL p = MAX_FUNCTIONS →
      run_user_code_static tools p
        = .proceed (awaitTrSL (safeTools tools (stripSL (autoReturn p)))
            (stripSL (autoReturn p))))
    ∧ (countCallsSL p = MAX_FUNCTIONS + 1 →
      run_user_code_static tools p
          = .rejected (.tooManyFunctions (MAX_FUNCTIONS + 1))
        ∧ executedProgram (run_user_code_static tools p) = none) := by
  constructor
  · intro hcount
    unfold run_user_code_static
    rw [hcount]
    simp
  · intro hcount
    have hrej : run_user_code_static tools p
        = .rejected (.tooManyFunctions (MAX_FUNCTIONS + 1)) := by
      unfold run_user_code_static
      rw [hcount]
      simp
    exact ⟨hrej, by rw [hrej]; rfl⟩

/-- C2 witness: the guard accepts the 50-call snippet `f(); …; f()` and
rejects the 51-call one, which reaches no execution. -/
theorem c2_operation_budget_witness :
    (run_user_code_static ["f"] (callsN "f" 50)
      = .proceed (awaitTrSL (safeTools ["f"] (stripSL (autoReturn (callsN "f" 50))))
          (stripSL (autoReturn (callsN "f" 50)))))
    ∧ (run_user_code_static ["f"] (callsN "f" 51)
        = .rejected (.tooManyFunctions (MAX_FUNCTIONS + 1))
      ∧ executedProgram (run_user_code_static ["f"] (callsN "f" 51)) = none) :=
  ⟨(c2_operation_budget ["f"] (callsN "f" 50)).1 (countCalls_callsN "f" 50),
   (c2_operation_budget ["f"] (callsN "f" 51)).2 (countCalls_callsN "f" 51)⟩


/-- A backward-reference bound read off `backwardFrom`. -/
lemma backwardFrom_get (conv : List SessionTurn) :
    ∀ (k n : Nat), backwardFrom k conv = true →
    ∀ t, conv[n]? = some t →
    ∀ j, t.context_from_turn = some j → j < k + n := by
  induction conv with
  | nil =>
    intro k n _ t hget
    simp at hget
  | cons hd tl ih =>
    intro k n h t hget j hj
    rw [backwardFrom, Bool.and_eq_true] at h
    obtain ⟨h1, h2⟩ := h
    cases n with
    | zero =>
      rw [List.getElem?_cons_zero] at hget
      cases hget
      rw [hj] at h1
      simpa using of_decide_eq_true h1
    | succ n' =>
      have := ih (k + 1) n' h2 t (by simpa using hget) j hj
      omega

/-- The chain loop starting from a `None` reference is empty at any fuel. -/
lemma chain_none (fuel : Nat) (conv : List SessionTurn) :
    get_context_chain fuel conv Option.none = [] := by
  cases fuel <;> rfl

/-- Under backward references the chain traversal is insensitive to any
sufficient fuel: `turn_id + 1` iterations already reach a fixpoint. -/
lemma chain_fuel_stable (conv : List SessionTurn)
    (hb : backwardRefs conv = true) :
    ∀ i fuel, i < fuel →
    get_context_chain fuel conv (some i) = get_context_chain (i + 1) conv (some i) := by
  intro i
  induction i using Nat.strong_induction_on with
  | _ i ih =>
    intro fuel hfuel
    obtain ⟨f', rfl⟩ : ∃ f', fuel = f' + 1 := ⟨fuel - 1, by omega⟩
    rcases hget : conv[i]? with _ | t
    · simp [get_context_chain, hget]
    · rcases hctx : t.context_from_turn with _ | j
      · simp [get_context_chain, hget, hctx, chain_none]
      · have hj : j < i := by
          simpa using backwardFrom_get conv 0 i hb t hget j hctx
        have h1 : get_context_chain (f' + 1) conv (some i)
            = get_context_chain f' conv (some j) ++ [t] := by
          simp [get_context_chain, hget, hctx]
        have h2 : get_context_chain (i + 1) conv (some i)
            = get_context_chain i conv (some j) ++ [t] := by
          simp [get_context_chain, hget, hctx]
        rw [h1, h2, ih j hj f' (by omega), ih j hj i (by omega)]

/-- Appending one turn keeps `backwardFrom` provided the new turn's reference
points before the end of the existing list. -/
lemma backwardFrom_append_one (xs : List SessionTurn) :
    ∀ (k : Nat) (t : SessionTurn),
    backwardFrom k (xs ++ [t])
      = (backwardFrom k xs &&
         (match t.context_from_turn with
          | Option.none => true
          | some j => decide (j < k + xs.length))) := by
  induction xs with
  | nil =>
    intro k t
    rcases hc : t.context_from_turn with _ | j <;>
      simp [backwardFrom, hc]
  | cons hd tl ih =>
    intro k t
    simp only [List.cons_append, backwardFrom, List.append_eq, ih (k + 1),
      List.length_cons]
    have harith : k + 1 + tl.length = k + (tl.length + 1) := by omega
    simp only [harith, Bool.and_assoc]

/-- C9: `context_from_turn` references installed through `add_turn` on an
existing turn go strictly backward in insertion order, and under that
invariant the iterative lookup of `get_context_chain` terminates: any fuel
beyond `turn_id` iterations computes the same finite chain. -/
theorem c9_context_chain_terminates (conv : List SessionTurn)
    (hb : backwardRefs conv = true) :
    (∀ query answer confidence source validated j, j < conv.length →
      backwardRefs
        (add_turn conv query answer confidence source validated (some j)).1 = true)
    ∧ (∀ turn_id fuel, turn_id < fuel →
      get_context_chain fuel conv (some turn_id)
        = get_context_chain (turn_id + 1) conv (some turn_id)) := by
  constructor
  · intro query answer confidence source validated j hj
    unfold add_turn backwardRefs
    rw [backwardFrom_append_one]
    simp only [Bool.and_eq_true]
    exact ⟨hb, by simpa using hj⟩
  · exact chain_fuel_stable conv hb

/-- C9 witness: on the two-turn conversation where turn 1 references turn 0,
`add_turn` preserves backwardness and the chain of turn 1 is fuel-stable. -/
theorem c9_context_chain_terminates_witness :
    (∀ query answer confidence source validated j,
      j < ([SessionTurn.mk 0 "q0" "a0" 1 "documents" true Option.none,
            SessionTurn.mk 1 "q1" "a1" 1 "documents" true (some 0)] :
            List SessionTurn).length →
      backwardRefs
        (add_turn [SessionTurn.mk 0 "q0" "a0" 1 "documents" true Option.none,
                   SessionTurn.mk 1 "q1" "a1" 1 "documents" true (some 0)]
          query answer confidence source validated (some j)).1 = true)
    ∧ (∀ turn_id fuel, turn_id < fuel →
      get_context_chain fuel
          [SessionTurn.mk 0 "q0" "a0" 1 "documents" true Option.none,
           SessionTurn.mk 1 "q1" "a1" 1 "documents" true (some 0)]
          (some turn_id)
        = get_context_chain (turn_id + 1)
            [SessionTurn.mk 0 "q0" "a0" 1 "documents" true Option.none,
             SessionTurn.mk 1 "q1" "a1" 1 "documents" true (some 0)]
            (some turn_id)) :=
  c9_context_chain_terminates
    [SessionTurn.mk 0 "q0" "a0" 1 "documents" true Option.none,
     SessionTurn.mk 1 "q1" "a1" 1 "documents" true (some 0)]
    (by decide)


/-- Call counts add over argument-list concatenation. -/
lemma countCallsA_append (xs ys : PexprArgs) :
    countCallsA (appendArgs xs ys) = countCallsA xs + countCallsA ys := by
  cases xs with
  | nil => simp [appendArgs, countCallsA]
  | cons e rest =>
    simp [appendArgs, countCallsA, countCallsA_append rest ys]
    omega

/-- The values of a keyword list carry exactly its call count. -/
lemma countCallsA_kwValues (ks : PexprKws) :
    countCallsA (kwValues ks) = countCallsK ks := by
  cases ks with
  | nil => rfl
  | cons n e rest => simp [kwValues, countCallsA, countCallsK, countCallsA_kwValues rest]

mutual
/-- Keyword stripping preserves the call count of an expression. -/
theorem strip_count_e (e : Pexpr) : countCallsE (stripE e) = countCallsE e := by
  cases e with
  | name s => rfl
  | constE => rfl
  | awaitE v => simp [stripE, countCallsE, strip_count_e v]
  | call f args kws =>
    simp [stripE, countCallsE, countCallsA_append, countCallsA_kwValues,
      strip_count_e f, strip_count_a args, strip_count_k kws, countCallsK]
    omega
/-- Keyword stripping preserves the call count of an argument list. -/
theorem strip_count_a (xs : PexprArgs) : countCallsA (stripA xs) = countCallsA xs := by
  cases xs with
  | nil => rfl
  | cons e rest => simp [stripA, countCallsA, strip_count_e e, strip_count_a rest]
/-- Keyword stripping preserves the call count of a keyword list. -/
theorem strip_count_k (ks : PexprKws) : countCallsK (stripK ks) = countCallsK ks := by
  cases ks with
  | nil => rfl
  | cons n e rest => simp [stripK, countCallsK, strip_count_e e, strip_count_k rest]
end

mutual
/-- Keyword stripping preserves the call count of a statement. -/
theorem strip_count_s (st : Pstmt) : countCallsS (stripS st) = countCallsS st := by
  cases st with
  | exprStmt e => simp [stripS, countCallsS, strip_count_e e]
  | assign n e => simp [stripS, countCallsS, strip_count_e e]
  | ret e => simp [stripS, countCallsS, strip_count_e e]
  | funcDef n body => simp [stripS, countCallsS, strip_count_sl body]
  | asyncFuncDef n body => simp [stripS, countCallsS, strip_count_sl body]
/-- Keyword stripping preserves the call count of a statement list. -/
theorem strip_count_sl (p : PstmtList) : countCallsSL (stripSL p) = countCallsSL p := by
  cases p with
  | nil => rfl
  | cons st rest => simp [stripSL, countCallsSL, strip_count_s st, strip_count_sl rest]
end


mutual
/-- The auto-await rewrite preserves the call count of an expression. -/
theorem awaitTr_count_e (safe : List String) (e : Pexpr) :
    countCallsE (awaitTrE safe e) = countCallsE e := by
  cases e with
  | name s => rfl
  | constE => rfl
  | awaitE v =>
    cases v with
    | name s => rfl
    | constE => rfl
    | awaitE w =>
      simp [awaitTrE, countCallsE, awaitTr_count_e safe (Pexpr.awaitE w)]
    | call f args kws =>
      simp [awaitTrE, countCallsE, awaitTr_count_e safe f,
        awaitTr_count_a safe args, awaitTr_count_k safe kws]
  | call f args kws =>
    have hfc := awaitTr_count_e safe f
    rcases hf : awaitTrE safe f with t | _ | ⟨f2, a2, k2⟩ | v2 <;> rw [hf] at hfc
    · by_cases hs : t ∈ safe <;>
        (simp [awaitTrE, hf, hs, countCallsE, awaitTr_count_a safe args,
           awaitTr_count_k safe kws]
         simp [countCallsE] at hfc
         omega)
    · simp [awaitTrE, hf, countCallsE, awaitTr_count_a safe args,
        awaitTr_count_k safe kws]
      simp [countCallsE] at hfc
      omega
    · simp [awaitTrE, hf, countCallsE, awaitTr_count_a safe args,
        awaitTr_count_k safe kws]
      simp [countCallsE] at hfc
      omega
    · simp [awaitTrE, hf, countCallsE, awaitTr_count_a safe args,
        awaitTr_count_k safe kws]
      simp [countCallsE] at hfc
      omega
/-- The auto-await rewrite preserves the call count of an argument list. -/
theorem awaitTr_count_a (safe : List String) (xs : PexprArgs) :
    countCallsA (awaitTrA safe xs) = countCallsA xs := by
  cases xs with
  | nil => rfl
  | cons e rest =>
    simp [awaitTrA, countCallsA, awaitTr_count_e safe e, awaitTr_count_a safe rest]
/-- The auto-await rewrite preserves the call count of a keyword list. -/
theorem awaitTr_count_k (safe : List String) (ks : PexprKws) :
    countCallsK (awaitTrK safe ks) = countCallsK ks := by
  cases ks with
  | nil => rfl
  | cons n e rest =>
    simp [awaitTrK, countCallsK, awaitTr_count_e safe e, awaitTr_count_k safe rest]
end

mutual
/-- The auto-await rewrite preserves the call count of a statement. -/
theorem awaitTr_count_s (safe : List String) (st : Pstmt) :
    countCallsS (awaitTrS safe st) = countCallsS st := by
  cases st with
  | exprStmt e => simp [awaitTrS, countCallsS, awaitTr_count_e safe e]
  | assign n e => simp [awaitTrS, countCallsS, awaitTr_count_e safe e]
  | ret e => simp [awaitTrS, countCallsS, awaitTr_count_e safe e]
  | funcDef n body => simp [awaitTrS, countCallsS, awaitTr_count_sl safe body]
  | asyncFuncDef n body => simp [awaitTrS, countCallsS, awaitTr_count_sl safe body]
/-- The auto-await rewrite preserves the call count of a statement list. -/
theorem awaitTr_count_sl (safe : List String) (p : PstmtList) :
    countCallsSL (awaitTrSL safe p) = countCallsSL p := by
  cases p with
  | nil => rfl
  | cons st rest =>
    simp [awaitTrSL, countCallsSL, awaitTr_count_s safe st, awaitTr_count_sl safe rest]
end

/-- Call counts add over statement-list concatenation. -/
lemma countCallsSL_append (xs ys : PstmtList) :
    countCallsSL (appendStmts xs ys) = countCallsSL xs + countCallsSL ys := by
  cases xs with
  | nil => simp [appendStmts, countCallsSL]
  | cons st rest =>
    simp [appendStmts, countCallsSL, countCallsSL_append rest ys]
    omega

/-- The auto-return append preserves the call count. -/
lemma autoReturn_count (p : PstmtList) :
    countCallsSL (autoReturn p) = countCallsSL p := by
  unfold autoReturn
  split
  · simp [countCallsSL_append, countCallsSL, countCallsS, countCallsE]
  · rfl


/-- The `noKwA` distributes over argument-list concatenation. -/
lemma noKwA_append (xs ys : PexprArgs) :
    noKwA (appendArgs xs ys) = (noKwA xs && noKwA ys) := by
  cases xs with
  | nil => simp [appendArgs, noKwA]
  | cons e rest =>
    simp [appendArgs, noKwA, noKwA_append rest ys, Bool.and_assoc]

/-- The values of a keyword-free keyword list are keyword-free. -/
lemma noKwA_kwValues (ks : PexprKws) : noKwA (kwValues ks) = noKwK ks := by
  cases ks with
  | nil => rfl
  | cons n e rest => simp [kwValues, noKwA, noKwK, noKwA_kwValues rest]

mutual
/-- Keyword stripping leaves no keyword argument in an expression. -/
theorem strip_noKw_e (e : Pexpr) : noKwE (stripE e) = true := by
  cases e with
  | name s => rfl
  | constE => rfl
  | awaitE v => simp [stripE, noKwE, strip_noKw_e v]
  | call f args kws =>
    simp [stripE, noKwE, kwsNil, noKwA_append, noKwA_kwValues, noKwK,
      strip_noKw_e f, strip_noKw_a args, strip_noKw_k kws]
/-- Keyword stripping leaves no keyword argument in an argument list. -/
theorem strip_noKw_a (xs : PexprArgs) : noKwA (stripA xs) = true := by
  cases xs with
  | nil => rfl
  | cons e rest => simp [stripA, noKwA, strip_noKw_e e, strip_noKw_a rest]
/-- Stripped keyword values are keyword-free. -/
theorem strip_noKw_k (ks : PexprKws) : noKwK (stripK ks) = true := by
  cases ks with
  | nil => rfl
  | cons n e rest => simp [stripK, noKwK, strip_noKw_e e, strip_noKw_k rest]
end

mutual
/-- Keyword stripping leaves no keyword argument in a statement. -/
theorem strip_noKw_s (st : Pstmt) : noKwS (stripS st) = true := by
  cases st with
  | exprStmt e => simp [stripS, noKwS, strip_noKw_e e]
  | assign n e => simp [stripS, noKwS, strip_noKw_e e]
  | ret e => simp [stripS, noKwS, strip_noKw_e e]
  | funcDef n body => simp [stripS, noKwS, strip_noKw_sl body]
  | asyncFuncDef n body => simp [stripS, noKwS, strip_noKw_sl body]
/-- Keyword stripping leaves no keyword argument in a statement list. -/
theorem strip_noKw_sl (p : PstmtList) : noKwSL (stripSL p) = true := by
  cases p with
  | nil => rfl
  | cons st rest => simp [stripSL, noKwSL, strip_noKw_s st, strip_noKw_sl rest]
end

mutual
/-- The auto-await rewrite preserves keyword-freedom of an expression. -/
theorem awaitTr_noKw_e (safe : List String) (e : Pexpr) (h : noKwE e = true) :
    noKwE (awaitTrE safe e) = true := by
  cases e with
  | name s => rfl
  | constE => rfl
  | awaitE v =>
    cases v with
    | name s => rfl
    | constE => rfl
    | awaitE w =>
      simp only [noKwE] at h
      simpa [awaitTrE, noKwE] using awaitTr_noKw_e safe (Pexpr.awaitE w) h
    | call f args kws =>
      simp only [noKwE, Bool.and_eq_true] at h
      obtain ⟨⟨⟨hnil, hf⟩, hargs⟩, hkws⟩ := h
      simp [awaitTrE, noKwE, kwsNil_awaitTrK safe kws hnil,
        awaitTr_noKw_e safe f hf, awaitTr_noKw_a safe args hargs,
        awaitTr_noKw_k safe kws hkws]
  | call f args kws =>
    simp only [noKwE, Bool.and_eq_true] at h
    obtain ⟨⟨⟨hnil, hf⟩, hargs⟩, hkws⟩ := h
    rcases hfr : awaitTrE safe f with t | _ | ⟨f2, a2, k2⟩ | v2
    · by_cases hs : t ∈ safe <;>
        simp [awaitTrE, hfr, hs, noKwE, kwsNil_awaitTrK safe kws hnil,
          awaitTr_noKw_a safe args hargs, awaitTr_noKw_k safe kws hkws]
    · simp [awaitTrE, hfr, noKwE, kwsNil_awaitTrK safe kws hnil,
        awaitTr_noKw_a safe args hargs, awaitTr_noKw_k safe kws hkws]
    · have hres := awaitTr_noKw_e safe f hf
      rw [hfr] at hres
      simp only [noKwE, Bool.and_eq_true] at hres
      simp [awaitTrE, hfr, noKwE, kwsNil_awaitTrK safe kws hnil,
        awaitTr_noKw_a safe args hargs, awaitTr_noKw_k safe kws hkws]
      exact hres
    · have hres := awaitTr_noKw_e safe f hf
      rw [hfr] at hres
      simp only [noKwE] at hres
      simp [awaitTrE, hfr, noKwE, kwsNil_awaitTrK safe kws hnil,
        awaitTr_noKw_a safe args hargs, awaitTr_noKw_k safe kws hkws]
      exact hres
/-- The auto-await rewrite preserves keyword-freedom of an argument list. -/
theorem awaitTr_noKw_a (safe : List String) (xs : PexprArgs)
    (h : noKwA xs = true) : noKwA (awaitTrA safe xs) = true := by
  cases xs with
  | nil => rfl
  | cons e rest =>
    simp only [noKwA, Bool.and_eq_true] at h
    simp [awaitTrA, noKwA, awaitTr_noKw_e safe e h.1, awaitTr_noKw_a safe rest h.2]
/-- The auto-await rewrite preserves keyword-freedom of a keyword list. -/
theorem awaitTr_noKw_k (safe : List String) (ks : PexprKws)
    (h : noKwK ks = true) : noKwK (awaitTrK safe ks) = true := by
  cases ks with
  | nil => rfl
  | cons n e rest =>
    simp only [noKwK, Bool.and_eq_true] at h
    simp [awaitTrK, noKwK, awaitTr_noKw_e safe e h.1, awaitTr_noKw_k safe rest h.2]
/-- The auto-await rewrite preserves emptiness of a keyword list. -/
theorem kwsNil_awaitTrK (safe : List String) (ks : PexprKws)
    (h : kwsNil ks = true) : kwsNil (awaitTrK safe ks) = true := by
  cases ks with
  | nil => rfl
  | cons n e rest => simp [kwsNil] at h
end

mutual
/-- The auto-await rewrite preserves keyword-freedom of a statement. -/
theorem awaitTr_noKw_s (safe : List String) (st : Pstmt) (h : noKwS st = true) :
    noKwS (awaitTrS safe st) = true := by
  cases st with
  | exprStmt e => simpa [awaitTrS, noKwS] using awaitTr_noKw_e safe e (by simpa [noKwS] using h)
  | assign n e => simpa [awaitTrS, noKwS] using awaitTr_noKw_e safe e (by simpa [noKwS] using h)
  | ret e => simpa [awaitTrS, noKwS] using awaitTr_noKw_e safe e (by simpa [noKwS] using h)
  | funcDef n body => simpa [awaitTrS, noKwS] using awaitTr_noKw_sl safe body (by simpa [noKwS] using h)
  | asyncFuncDef n body => simpa [awaitTrS, noKwS] using awaitTr_noKw_sl safe body (by simpa [noKwS] using h)
/-- The auto-await rewrite preserves keyword-freedom of a statement list. -/
theorem awaitTr_noKw_sl (safe : List String) (p : PstmtList) (h : noKwSL p = true) :
    noKwSL (awaitTrSL safe p) = true := by
  cases p with
  | nil => rfl
  | cons st rest =>
    simp only [noKwSL, Bool.and_eq_true] at h
    simp [awaitTrSL, noKwSL, awaitTr_noKw_s safe st h.1, awaitTr_noKw_sl safe rest h.2]
end


/-- The auto-await rewrite of an `await` node is still an `await` node. -/
lemma awaitTr_awaitE_shape (safe : List String) (w : Pexpr) :
    ∃ u, awaitTrE safe (Pexpr.awaitE w) = Pexpr.awaitE u := by
  cases w <;> exact ⟨_, rfl⟩

/-- Only a bare name rewrites to a bare name under the auto-await rewrite. -/
lemma awaitTr_eq_name (safe : List String) (f : Pexpr) (s : String)
    (h : awaitTrE safe f = Pexpr.name s) : f = Pexpr.name s := by
  cases f with
  | name t => simpa [awaitTrE] using h
  | constE => simp [awaitTrE] at h
  | awaitE v =>
    obtain ⟨u, hu⟩ := awaitTr_awaitE_shape safe v
    rw [hu] at h
    simp at h
  | call g a k =>
    rw [awaitTrE] at h
    rcases hg : awaitTrE safe g with t | _ | ⟨g2, a2, k2⟩ | v2 <;> rw [hg] at h
    · by_cases hs : t ∈ safe <;> simp [hs] at h
    · simp at h
    · simp at h
    · simp at h

mutual
/-- Every call to a safe tool name in a rewritten expression sits directly
under an `await`. -/
theorem awaitTr_allAwaited_e (safe : List String) (e : Pexpr) :
    allAwaitedE safe (awaitTrE safe e) = true := by
  cases e with
  | name s => rfl
  | constE => rfl
  | awaitE v =>
    cases v with
    | name s => rfl
    | constE => rfl
    | awaitE w =>
      obtain ⟨u, hu⟩ := awaitTr_awaitE_shape safe w
      have ih := awaitTr_allAwaited_e safe (Pexpr.awaitE w)
      have hstep : awaitTrE safe (Pexpr.awaitE (Pexpr.awaitE w))
          = Pexpr.awaitE (awaitTrE safe (Pexpr.awaitE w)) := by
        cases w <;> rfl
      rw [hstep, hu]
      rw [hu] at ih
      simpa [allAwaitedE] using ih
    | call f args kws =>
      simp [awaitTrE, allAwaitedE, awaitTr_allAwaited_e safe f,
        awaitTr_allAwaited_a safe args, awaitTr_allAwaited_k safe kws]
  | call f args kws =>
    have ihf := awaitTr_allAwaited_e safe f
    rcases hf : awaitTrE safe f with t | _ | ⟨f2, a2, k2⟩ | v2 <;> rw [hf] at ihf
    · by_cases hs : t ∈ safe <;>
        simp [awaitTrE, hf, hs, allAwaitedE, calleeOk,
          awaitTr_allAwaited_a safe args, awaitTr_allAwaited_k safe kws]
    · simp [awaitTrE, hf, allAwaitedE, calleeOk,
        awaitTr_allAwaited_a safe args, awaitTr_allAwaited_k safe kws]
    · simp [awaitTrE, hf, allAwaitedE, calleeOk,
        awaitTr_allAwaited_a safe args, awaitTr_allAwaited_k safe kws]
      simpa [allAwaitedE, calleeOk] using ihf
    · simp [awaitTrE, hf, allAwaitedE, calleeOk,
        awaitTr_allAwaited_a safe args, awaitTr_allAwaited_k safe kws]
      simpa [allAwaitedE, calleeOk] using ihf
/-- The `awaitTr_allAwaited_e` over an argument list. -/
theorem awaitTr_allAwaited_a (safe : List String) (xs : PexprArgs) :
    allAwaitedA safe (awaitTrA safe xs) = true := by
  cases xs with
  | nil => rfl
  | cons e rest =>
    simp [awaitTrA, allAwaitedA, awaitTr_allAwaited_e safe e,
      awaitTr_allAwaited_a safe rest]
/-- The `awaitTr_allAwaited_e` over a keyword list. -/
theorem awaitTr_allAwaited_k (safe : List String) (ks : PexprKws) :
    allAwaitedK safe (awaitTrK safe ks) = true := by
  cases ks with
  | nil => rfl
  | cons n e rest =>
    simp [awaitTrK, allAwaitedK, awaitTr_allAwaited_e safe e,
      awaitTr_allAwaited_k safe rest]
end

mutual
/-- The `awaitTr_allAwaited_e` over a statement. -/
theorem awaitTr_allAwaited_s (safe : List String) (st : Pstmt) :
    allAwaitedS safe (awaitTrS safe st) = true := by
  cases st with
  | exprStmt e => simpa [awaitTrS, allAwaitedS] using awaitTr_allAwaited_e safe e
  | assign n e => simpa [awaitTrS, allAwaitedS] using awaitTr_allAwaited_e safe e
  | ret e => simpa [awaitTrS, allAwaitedS] using awaitTr_allAwaited_e safe e
  | funcDef n body =>
    simpa [awaitTrS, allAwaitedS] using awaitTr_allAwaited_sl safe body
  | asyncFuncDef n body =>
    simpa [awaitTrS, allAwaitedS] using awaitTr_allAwaited_sl safe body
/-- The `awaitTr_allAwaited_e` over a statement list. -/
theorem awaitTr_allAwaited_sl (safe : List String) (p : PstmtList) :
    allAwaitedSL safe (awaitTrSL safe p) = true := by
  cases p with
  | nil => rfl
  | cons st rest =>
    simp [awaitTrSL, allAwaitedSL, awaitTr_allAwaited_s safe st,
      awaitTr_allAwaited_sl safe rest]
end


/-- The `awCountE` on an awaited call whose callee is not a bare name. -/
lemma awCountE_awaited_call (t : String) (F : Pexpr) (a : PexprArgs)
    (k : PexprKws) (hF : ∀ s, F ≠ Pexpr.name s) :
    awCountE t (Pexpr.awaitE (Pexpr.call F a k))
      = awCountE t F + awCountA t a + awCountK t k := by
  cases F with
  | name s => exact absurd rfl (hF s)
  | constE => simp [awCountE]
  | call g a2 k2 => simp [awCountE]
  | awaitE w => simp [awCountE]

mutual
/-- The auto-await rewrite adds no suspension wrapper around calls to a name
outside the safe tool set. -/
theorem awaitTr_awCount_e (safe : List String) (t : String) (hs : t ∉ safe)
    (e : Pexpr) : awCountE t (awaitTrE safe e) = awCountE t e := by
  cases e with
  | name s => rfl
  | constE => rfl
  | awaitE v =>
    cases v with
    | name s => rfl
    | constE => rfl
    | awaitE w =>
      obtain ⟨u, hu⟩ := awaitTr_awaitE_shape safe w
      have ih := awaitTr_awCount_e safe t hs (Pexpr.awaitE w)
      have hstep : awaitTrE safe (Pexpr.awaitE (Pexpr.awaitE w))
          = Pexpr.awaitE (awaitTrE safe (Pexpr.awaitE w)) := by
        cases w <;> rfl
      rw [hstep, hu]
      rw [hu] at ih
      simpa [awCountE] using ih
    | call f args kws =>
      cases f with
      | name s =>
        simp [awaitTrE, awCountE, awaitTr_awCount_a safe t hs args,
          awaitTr_awCount_k safe t hs kws]
      | constE =>
        simp [awaitTrE, awCountE, awaitTr_awCount_a safe t hs args,
          awaitTr_awCount_k safe t hs kws]
      | call g a2 k2 =>
        have ihf := awaitTr_awCount_e safe t hs (Pexpr.call g a2 k2)
        have hnn : ∀ s2, awaitTrE safe (Pexpr.call g a2 k2) ≠ Pexpr.name s2 := by
          intro s2 hcon
          have := awaitTr_eq_name safe _ s2 hcon
          simp at this
        have hstep : awaitTrE safe
              (Pexpr.awaitE (Pexpr.call (Pexpr.call g a2 k2) args kws))
            = Pexpr.awaitE (Pexpr.call (awaitTrE safe (Pexpr.call g a2 k2))
                (awaitTrA safe args) (awaitTrK safe kws)) := rfl
        rw [hstep, awCountE_awaited_call t _ _ _ hnn,
          awCountE_awaited_call t _ _ _ (by intro s2 hcon; simp at hcon)]
        simp [ihf, awaitTr_awCount_a safe t hs args, awaitTr_awCount_k safe t hs kws]
      | awaitE w2 =>
        have ihf := awaitTr_awCount_e safe t hs (Pexpr.awaitE w2)
        have hnn : ∀ s2, awaitTrE safe (Pexpr.awaitE w2) ≠ Pexpr.name s2 := by
          intro s2 hcon
          have := awaitTr_eq_name safe _ s2 hcon
          simp at this
        have hstep : awaitTrE safe
              (Pexpr.awaitE (Pexpr.call (Pexpr.awaitE w2) args kws))
            = Pexpr.awaitE (Pexpr.call (awaitTrE safe (Pexpr.awaitE w2))
                (awaitTrA safe args) (awaitTrK safe kws)) := rfl
        rw [hstep, awCountE_awaited_call t _ _ _ hnn,
          awCountE_awaited_call t _ _ _ (by intro s2 hcon; simp at hcon)]
        simp [ihf, awaitTr_awCount_a safe t hs args, awaitTr_awCount_k safe t hs kws]
  | call f args kws =>
    have ihf := awaitTr_awCount_e safe t hs f
    rcases hf : awaitTrE safe f with t2 | _ | ⟨f2, a2, k2⟩ | v2 <;> rw [hf] at ihf
    · have hfe : f = Pexpr.name t2 := awaitTr_eq_name safe f t2 hf
      subst hfe
      by_cases hmem : t2 ∈ safe
      · have ht2 : ¬(t2 = t) := fun he => hs (he ▸ hmem)
        simp [awaitTrE, hf, hmem, awCountE, ht2,
          awaitTr_awCount_a safe t hs args, awaitTr_awCount_k safe t hs kws]
      · simp [awaitTrE, hf, hmem, awCountE,
          awaitTr_awCount_a safe t hs args, awaitTr_awCount_k safe t hs kws]
    · simp [awaitTrE, hf, awCountE, awaitTr_awCount_a safe t hs args,
        awaitTr_awCount_k safe t hs kws]
      simp [awCountE] at ihf
      omega
    · simp [awaitTrE, hf, awCountE, awaitTr_awCount_a safe t hs args,
        awaitTr_awCount_k safe t hs kws]
      simp [awCountE] at ihf
      omega
    · simp [awaitTrE, hf, awCountE, awaitTr_awCount_a safe t hs args,
        awaitTr_awCount_k safe t hs kws]
      omega
/-- The `awaitTr_awCount_e` over an argument list. -/
theorem awaitTr_awCount_a (safe : List String) (t : String) (hs : t ∉ safe)
    (xs : PexprArgs) : awCountA t (awaitTrA safe xs) = awCountA t xs := by
  cases xs with
  | nil => rfl
  | cons e rest =>
    simp [awaitTrA, awCountA, awaitTr_awCount_e safe t hs e,
      awaitTr_awCount_a safe t hs rest]
/-- The `awaitTr_awCount_e` over a keyword list. -/
theorem awaitTr_awCount_k (safe : List String) (t : String) (hs : t ∉ safe)
    (ks : PexprKws) : awCountK t (awaitTrK safe ks) = awCountK t ks := by
  cases ks with
  | nil => rfl
  | cons n e rest =>
    simp [awaitTrK, awCountK, awaitTr_awCount_e safe t hs e,
      awaitTr_awCount_k safe t hs rest]
end

mutual
/-- The `awaitTr_awCount_e` over a statement. -/
theorem awaitTr_awCount_s (safe : List String) (t : String) (hs : t ∉ safe)
    (st : Pstmt) : awCountS t (awaitTrS safe st) = awCountS t st := by
  cases st with
  | exprStmt e => simp [awaitTrS, awCountS, awaitTr_awCount_e safe t hs e]
  | assign n e => simp [awaitTrS, awCountS, awaitTr_awCount_e safe t hs e]
  | ret e => simp [awaitTrS, awCountS, awaitTr_awCount_e safe t hs e]
  | funcDef n body => simp [awaitTrS, awCountS, awaitTr_awCount_sl safe t hs body]
  | asyncFuncDef n body => simp [awaitTrS, awCountS, awaitTr_awCount_sl safe t hs body]
/-- The `awaitTr_awCount_e` over a statement list. -/
theorem awaitTr_awCount_sl (safe : List String) (t : String) (hs : t ∉ safe)
    (p : PstmtList) : awCountSL t (awaitTrSL safe p) = awCountSL t p := by
  cases p with
  | nil => rfl
  | cons st rest =>
    simp [awaitTrSL, awCountSL, awaitTr_awCount_s safe t hs st,
      awaitTr_awCount_sl safe t hs rest]
end


/-- The `awCountA` adds over argument-list concatenation. -/
lemma awCountA_append (t : String) (xs ys : PexprArgs) :
    awCountA t (appendArgs xs ys) = awCountA t xs + awCountA t ys := by
  cases xs with
  | nil => simp [appendArgs, awCountA]
  | cons e rest =>
    simp [appendArgs, awCountA, awCountA_append t rest ys]
    omega

/-- The values of a keyword list carry exactly its awaited-call count. -/
lemma awCountA_kwValues (t : String) (ks : PexprKws) :
    awCountA t (kwValues ks) = awCountK t ks := by
  cases ks with
  | nil => rfl
  | cons n e rest => simp [kwValues, awCountA, awCountK, awCountA_kwValues t rest]

/-- Keyword stripping preserves the callee shapes other than a bare name. -/
lemma stripE_ne_name (f : Pexpr) (hf : ∀ s, f ≠ Pexpr.name s) :
    ∀ s, stripE f ≠ Pexpr.name s := by
  cases f with
  | name s => exact absurd rfl (hf s)
  | constE => intro s; simp [stripE]
  | call g a k => intro s; simp [stripE]
  | awaitE v => intro s; simp [stripE]

mutual
/-- Keyword stripping preserves the awaited-call count of an expression. -/
theorem strip_awCount_e (t : String) (e : Pexpr) :
    awCountE t (stripE e) = awCountE t e := by
  cases e with
  | name s => rfl
  | constE => rfl
  | awaitE v =>
    cases v with
    | name s => rfl
    | constE => rfl
    | awaitE w =>
      simpa [stripE, awCountE] using strip_awCount_e t (Pexpr.awaitE w)
    | call f args kws =>
      cases f with
      | name s =>
        simp [stripE, awCountE, awCountA_append, awCountA_kwValues, awCountK,
          strip_awCount_a t args, strip_awCount_k t kws]
        omega
      | constE =>
        simp only [stripE]
        rw [awCountE_awaited_call t Pexpr.constE
            (appendArgs (stripA args) (kwValues (stripK kws))) PexprKws.nil
            (by intro s; simp),
          awCountE_awaited_call t Pexpr.constE args kws (by intro s; simp)]
        simp [awCountE, awCountA_append, awCountA_kwValues, awCountK,
          strip_awCount_a t args, strip_awCount_k t kws]
      | call g a2 k2 =>
        simp only [stripE]
        rw [awCountE_awaited_call t
            (Pexpr.call (stripE g)
              (appendArgs (stripA a2) (kwValues (stripK k2))) PexprKws.nil)
            (appendArgs (stripA args) (kwValues (stripK kws))) PexprKws.nil
            (by intro s; simp),
          awCountE_awaited_call t (Pexpr.call g a2 k2) args kws
            (by intro s; simp)]
        simp [awCountE, awCountA_append, awCountA_kwValues, awCountK,
          strip_awCount_e t g, strip_awCount_a t a2, strip_awCount_k t k2,
          strip_awCount_a t args, strip_awCount_k t kws]
        omega
      | awaitE w2 =>
        simp only [stripE]
        rw [awCountE_awaited_call t (Pexpr.awaitE (stripE w2))
            (appendArgs (stripA args) (kwValues (stripK kws))) PexprKws.nil
            (by intro s; simp),
          awCountE_awaited_call t (Pexpr.awaitE w2) args kws
            (by intro s; simp)]
        have ihf := strip_awCount_e t (Pexpr.awaitE w2)
        simp only [stripE] at ihf
        simp [awCountA_append, awCountA_kwValues, awCountK,
          strip_awCount_a t args, strip_awCount_k t kws]
        omega
  | call f args kws =>
    simp [stripE, awCountE, awCountA_append, awCountA_kwValues, awCountK,
      strip_awCount_e t f, strip_awCount_a t args, strip_awCount_k t kws]
    omega
/-- The `strip_awCount_e` over an argument list. -/
theorem strip_awCount_a (t : String) (xs : PexprArgs) :
    awCountA t (stripA xs) = awCountA t xs := by
  cases xs with
  | nil => rfl
  | cons e rest =>
    simp [stripA, awCountA, strip_awCount_e t e, strip_awCount_a t rest]
/-- The `strip_awCount_e` over a keyword list. -/
theorem strip_awCount_k (t : String) (ks : PexprKws) :
    awCountK t (stripK ks) = awCountK t ks := by
  cases ks with
  | nil => rfl
  | cons n e rest =>
    simp [stripK, awCountK, strip_awCount_e t e, strip_awCount_k t rest]
end

mutual
/-- The `strip_awCount_e` over a statement. -/
theorem strip_awCount_s (t : String) (st : Pstmt) :
    awCountS t (stripS st) = awCountS t st := by
  cases st with
  | exprStmt e => simp [stripS, awCountS, strip_awCount_e t e]
  | assign n e => simp [stripS, awCountS, strip_awCount_e t e]
  | ret e => simp [stripS, awCountS, strip_awCount_e t e]
  | funcDef n body => simp [stripS, awCountS, strip_awCount_sl t body]
  | asyncFuncDef n body => simp [stripS, awCountS, strip_awCount_sl t body]
/-- The `strip_awCount_e` over a statement list. -/
theorem strip_awCount_sl (t : String) (p : PstmtList) :
    awCountSL t (stripSL p) = awCountSL t p := by
  cases p with
  | nil => rfl
  | cons st rest =>
    simp [stripSL, awCountSL, strip_awCount_s t st, strip_awCount_sl t rest]
end

/-- The `awCountSL` adds over statement-list concatenation. -/
lemma awCountSL_append (t : String) (xs ys : PstmtList) :
    awCountSL t (appendStmts xs ys) = awCountSL t xs + awCountSL t ys := by
  cases xs with
  | nil => simp [appendStmts, awCountSL]
  | cons st rest =>
    simp [appendStmts, awCountSL, awCountSL_append t rest ys]
    omega

/-- The auto-return append adds no suspension wrappers. -/
lemma autoReturn_awCount (t : String) (p : PstmtList) :
    awCountSL t (autoReturn p) = awCountSL t p := by
  unfold autoReturn
  split
  · simp [awCountSL_append, awCountSL, awCountS, awCountE]
  · rfl

mutual
/-- Keyword stripping preserves locally defined function names. -/
theorem strip_localDefs_s (st : Pstmt) : localDefsS (stripS st) = localDefsS st := by
  cases st with
  | exprStmt e => simp [stripS, localDefsS]
  | assign n e => simp [stripS, localDefsS]
  | ret e => simp [stripS, localDefsS]
  | funcDef n body => simp [stripS, localDefsS, strip_localDefs_sl body]
  | asyncFuncDef n body => simp [stripS, localDefsS, strip_localDefs_sl body]
/-- The `strip_localDefs_s` over a statement list. -/
theorem strip_localDefs_sl (p : PstmtList) :
    localDefsSL (stripSL p) = localDefsSL p := by
  cases p with
  | nil => rfl
  | cons st rest =>
    simp [stripSL, localDefsSL, strip_localDefs_s st, strip_localDefs_sl rest]
end

/-- The `localDefsSL` concatenates over statement-list concatenation. -/
lemma localDefsSL_append (xs ys : PstmtList) :
    localDefsSL (appendStmts xs ys) = localDefsSL xs ++ localDefsSL ys := by
  cases xs with
  | nil => simp [appendStmts, localDefsSL]
  | cons st rest =>
    simp [appendStmts, localDefsSL, localDefsSL_append rest ys]

/-- The auto-return append introduces no local definitions. -/
lemma autoReturn_localDefs (p : PstmtList) :
    localDefsSL (autoReturn p) = localDefsSL p := by
  unfold autoReturn
  split
  · simp [localDefsSL_append, localDefsSL, localDefsS]
  · rfl

/-- A name locally defined in the snippet is excluded from the safe tools. -/
lemma safeTools_not_mem (tools : List String) (p : PstmtList) (t : String)
    (h : t ∈ localDefsSL p) : t ∉ safeTools tools p := by
  intro hmem
  rw [safeTools, List.mem_filter] at hmem
  rcases hmem with ⟨-, hpred⟩
  simp only [Bool.not_eq_true'] at hpred
  have hc : (localDefsSL p).contains t = true := List.elem_eq_true_of_mem h
  rw [hc] at hpred
  exact Bool.noConfusion hpred


/-- An accepted snippet's rewritten form is the auto-await rewrite of the
keyword-stripped, auto-returned body. -/
lemma run_user_code_static_proceed (tools : List String) (p q : PstmtList)
    (hacc : run_user_code_static tools p = ExecOutcome.proceed q) :
    q = awaitTrSL (safeTools tools (stripSL (autoReturn p)))
        (stripSL (autoReturn p)) := by
  simp only [run_user_code_static] at hacc
  split at hacc
  · exact ExecOutcome.noConfusion hacc
  · injection hacc with h
    exact h.symm

/-- C6: for every snippet accepted by the executor, the keyword-to-positional
rewrite turns each call's keyword arguments into positional arguments
appended in source order with the names discarded, the rewritten snippet
carries no keyword argument anywhere, and the total call count after all
rewrites equals the count before. -/
theorem c6_keyword_rewrite (tools : List String) (p q : PstmtList)
    (f : Pexpr) (args : PexprArgs) (kws : PexprKws)
    (hacc : run_user_code_static tools p = ExecOutcome.proceed q) :
    stripE (Pexpr.call f args kws)
      = Pexpr.call (stripE f)
          (appendArgs (stripA args) (kwValues (stripK kws))) PexprKws.nil
    ∧ noKwSL q = true
    ∧ countCallsSL q = countCallsSL p := by
  have hq := run_user_code_static_proceed tools p q hacc
  subst hq
  refine ⟨rfl, ?_, ?_⟩
  · exact awaitTr_noKw_sl _ _ (strip_noKw_sl _)
  · rw [awaitTr_count_sl, strip_count_sl, autoReturn_count]

/-- C6 witness: `result = add(b=2, a=3)` is accepted; the call becomes
`await add(2, 3)` with both keyword values appended positionally, the result
is keyword-free, and the call count stays 1. -/
theorem c6_keyword_rewrite_witness :
    stripE (Pexpr.call (Pexpr.name "add") PexprArgs.nil
        (PexprKws.cons "b" Pexpr.constE (PexprKws.cons "a" Pexpr.constE PexprKws.nil)))
      = Pexpr.call (stripE (Pexpr.name "add"))
          (appendArgs (stripA PexprArgs.nil)
            (kwValues (stripK (PexprKws.cons "b" Pexpr.constE
              (PexprKws.cons "a" Pexpr.constE PexprKws.nil))))) PexprKws.nil
    ∧ noKwSL (PstmtList.cons
        (Pstmt.assign "result" (Pexpr.awaitE (Pexpr.call (Pexpr.name "add")
          (PexprArgs.cons Pexpr.constE (PexprArgs.cons Pexpr.constE PexprArgs.nil))
          PexprKws.nil)))
        (PstmtList.cons (Pstmt.ret (Pexpr.name "result")) PstmtList.nil)) = true
    ∧ countCallsSL (PstmtList.cons
        (Pstmt.assign "result" (Pexpr.awaitE (Pexpr.call (Pexpr.name "add")
          (PexprArgs.cons Pexpr.constE (PexprArgs.cons Pexpr.constE PexprArgs.nil))
          PexprKws.nil)))
        (PstmtList.cons (Pstmt.ret (Pexpr.name "result")) PstmtList.nil))
      = countCallsSL (PstmtList.cons
        (Pstmt.assign "result" (Pexpr.call (Pexpr.name "add") PexprArgs.nil
          (PexprKws.cons "b" Pexpr.constE (PexprKws.cons "a" Pexpr.constE PexprKws.nil))))
        PstmtList.nil) :=
  c6_keyword_rewrite ["add"]
    (PstmtList.cons
      (Pstmt.assign "result" (Pexpr.call (Pexpr.name "add") PexprArgs.nil
        (PexprKws.cons "b" Pexpr.constE (PexprKws.cons "a" Pexpr.constE PexprKws.nil))))
      PstmtList.nil)
    (PstmtList.cons
      (Pstmt.assign "result" (Pexpr.awaitE (Pexpr.call (Pexpr.name "add")
        (PexprArgs.cons Pexpr.constE (PexprArgs.cons Pexpr.constE PexprArgs.nil))
        PexprKws.nil)))
      (PstmtList.cons (Pstmt.ret (Pexpr.name "result")) PstmtList.nil))
    (Pexpr.name "add") PexprArgs.nil
    (PexprKws.cons "b" Pexpr.constE (PexprKws.cons "a" Pexpr.constE PexprKws.nil))
    (by decide)

/-- C3: in the rewritten form of every accepted snippet, each call to an
unshadowed tool name is evaluated directly under a suspension node, and for a
tool name shadowed by a local definition anywhere in the snippet the number
of suspension wrappers around its calls is unchanged — such calls are never
wrapped. -/
theorem c3_auto_suspend (tools : List String) (p q : PstmtList) (t : String)
    (hacc : run_user_code_static tools p = ExecOutcome.proceed q)
    (hloc : t ∈ localDefsSL p) :
    allAwaitedSL (safeTools tools (stripSL (autoReturn p))) q = true
    ∧ awCountSL t q = awCountSL t p := by
  have hq := run_user_code_static_proceed tools p q hacc
  subst hq
  constructor
  · exact awaitTr_allAwaited_sl _ _
  · have hmem : t ∈ localDefsSL (stripSL (autoReturn p)) := by
      rw [strip_localDefs_sl, autoReturn_localDefs]
      exact hloc
    have hns : t ∉ safeTools tools (stripSL (autoReturn p)) :=
      safeTools_not_mem _ _ _ hmem
    rw [awaitTr_awCount_sl _ _ hns, strip_awCount_sl, autoReturn_awCount]

/-- C3 witness: a snippet that defines a local `factorial` and calls it while
a tool named `factorial` is registered — every remaining tool call is
suspended (vacuously) and the local call acquires no suspension wrapper. -/
theorem c3_auto_suspend_witness :
    allAwaitedSL
      (safeTools ["factorial"]
        (stripSL (autoReturn (PstmtList.cons
          (Pstmt.funcDef "factorial"
            (PstmtList.cons (Pstmt.ret Pexpr.constE) PstmtList.nil))
          (PstmtList.cons
            (Pstmt.exprStmt (Pexpr.call (Pexpr.name "factorial")
              PexprArgs.nil PexprKws.nil))
            PstmtList.nil)))))
      (PstmtList.cons
        (Pstmt.funcDef "factorial"
          (PstmtList.cons (Pstmt.ret Pexpr.constE) PstmtList.nil))
        (PstmtList.cons
          (Pstmt.exprStmt (Pexpr.call (Pexpr.name "factorial")
            PexprArgs.nil PexprKws.nil))
          PstmtList.nil)) = true
    ∧ awCountSL "factorial"
        (PstmtList.cons
          (Pstmt.funcDef "factorial"
            (PstmtList.cons (Pstmt.ret Pexpr.constE) PstmtList.nil))
          (PstmtList.cons
            (Pstmt.exprStmt (Pexpr.call (Pexpr.name "factorial")
              PexprArgs.nil PexprKws.nil))
            PstmtList.nil))
      = awCountSL "factorial"
          (PstmtList.cons
            (Pstmt.funcDef "factorial"
              (PstmtList.cons (Pstmt.ret Pexpr.constE) PstmtList.nil))
            (PstmtList.cons
              (Pstmt.exprStmt (Pexpr.call (Pexpr.name "factorial")
                PexprArgs.nil PexprKws.nil))
              PstmtList.nil)) :=
  c3_auto_suspend ["factorial"]
    (PstmtList.cons
      (Pstmt.funcDef "factorial"
        (PstmtList.cons (Pstmt.ret Pexpr.constE) PstmtList.nil))
      (PstmtList.cons
        (Pstmt.exprStmt (Pexpr.call (Pexpr.name "factorial")
          PexprArgs.nil PexprKws.nil))
        PstmtList.nil))
    (PstmtList.cons
      (Pstmt.funcDef "factorial"
        (PstmtList.cons (Pstmt.ret Pexpr.constE) PstmtList.nil))
      (PstmtList.cons
        (Pstmt.exprStmt (Pexpr.call (Pexpr.name "factorial")
          PexprArgs.nil PexprKws.nil))
        PstmtList.nil))
    "factorial" (by decide) (by decide)

end EagSpec
